import Mathlib

/-!
# Hot-or-not backend: voting and ranking model

A shallow embedding of `src/app.js`: the two SQLite tables (`images`, `votes`),
the four route handlers (`POST /api/upload`, `GET /api/images`,
`POST /api/vote/:id`, `GET /api/top5`) as functions on an explicit store, and
theorems about the counters, the vote ledger and the leaderboards.

Modelling conventions.
* A table is the list of its rows in rowid order; `INSERT` appends a row,
  `UPDATE ... WHERE` maps over every row and rewrites the matching ones.
* `INTEGER PRIMARY KEY AUTOINCREMENT` hands out one more than the largest id
  in use (at least 1); no handler deletes rows.
* SQLite integers and the counters are unbounded `Int`s (the 64-bit range is
  out of reach of one-by-one increments).
* The two quotients `hot_votes / total_votes` (JavaScript's for the rating,
  SQL's `CAST(hot_votes AS FLOAT) / total_votes` for the score) are binary64
  divisions, modelled exactly for counters below `2 ^ 53` in magnitude; the
  rating and the score are counted in hundredths.
* Storage failures (the `err` branches answering 500) are not modelled.
-/

namespace HotOrNot

/-! ## Data model -/

/-- A row of table `images` (src/app.js, lines 23-29). -/
structure Image where
  id : Int
  filename : String
  url : String
  total_votes : Int
  hot_votes : Int
deriving DecidableEq, Repr

/-- The SQL value that `req.params.id` becomes once bound against an
INTEGER-affinity column: text that reads as a number with an integer value
(such as `1` or `1.0`) is that integer (`int`), any other text keeps its own
storage class (`other`) and is equal to no integer. -/
inductive SqlValue where
  | int (n : Int)
  | other (raw : String)
deriving DecidableEq, Repr

/-- A row of table `votes` (src/app.js, lines 31-36); `created_at` is the
clock reading `CURRENT_TIMESTAMP` at insert time. -/
structure Vote where
  id : Int
  image_id : SqlValue
  value : String
  created_at : Nat
deriving DecidableEq, Repr

/-- The database: both tables. -/
structure Store where
  images : List Image
  votes : List Vote
deriving DecidableEq, Repr

/-- The database right after the two `CREATE TABLE` statements. -/
def emptyStore : Store := ⟨[], []⟩

/-- The rowid `AUTOINCREMENT` assigns to the next inserted row, given the ids
in the table. -/
def nextId (ids : List Int) : Int := ids.foldl max 0 + 1

/-- What `req.body.vote` can be: absent, a JSON string, or any other JSON
value (null, number, boolean, array, object), kept as its source text. -/
inductive JsValue where
  | undefined
  | str (s : String)
  | other (json : String)
deriving DecidableEq, Repr

/-- What a handler sends back: `res.json({ id, url })`,
`res.json({ success: true })` or `res.status(status).json({ error })`. -/
inductive Response where
  | uploaded (id : Int) (url : String)
  | success
  | error (status : Nat) (message : String)
deriving DecidableEq, Repr

/-! ## Handlers that write -/

/-- Handler of `POST /api/upload` (src/app.js, lines 47-55). `file` is `req.file`
reduced to the filename multer stored it under. -/
def upload (s : Store) (file : Option String) : Response × Store :=
  match file with
  | none => (.error 400 "No file uploaded", s)
  | some filename =>
    let url := "/uploads/" ++ filename
    let id := nextId (s.images.map (·.id))
    (.uploaded id url, { s with images := s.images ++ [⟨id, filename, url, 0, 0⟩] })

/-- The statement `UPDATE images SET total_votes = total_votes + 1,
hot_votes = hot_votes + ? WHERE id = ?` on one row. -/
def updateRow (isHot : Int) (imageId : SqlValue) (im : Image) : Image :=
  if SqlValue.int im.id = imageId then
    { im with total_votes := im.total_votes + 1, hot_votes := im.hot_votes + isHot }
  else im

/-- Handler of `POST /api/vote/:id` (src/app.js, lines 70-89). `now` is the clock at
insert time, `imageId` is `req.params.id`, `vote` is `req.body.vote`. -/
def castVote (s : Store) (now : Nat) (imageId : SqlValue) (vote : JsValue) :
    Response × Store :=
  match vote with
  | .str v =>
    if !(["hot", "not"].contains v) then (.error 400 "Invalid vote type", s)
    else
      let isHot : Int := if v = "hot" then 1 else 0
      let votes := s.votes ++ [⟨nextId (s.votes.map (·.id)), imageId, v, now⟩]
      (.success, ⟨s.images.map (updateRow isHot imageId), votes⟩)
  | _ => (.error 400 "Invalid vote type", s)

/-- A state-changing request to the service. -/
inductive Request where
  | upload (file : Option String)
  | vote (now : Nat) (imageId : SqlValue) (vote : JsValue)
deriving DecidableEq, Repr

/-- Serve one request. -/
def step (s : Store) : Request → Response × Store
  | .upload file => upload s file
  | .vote now imageId vote => castVote s now imageId vote

/-- Serve a sequence of requests, one after another. -/
def run (s : Store) (reqs : List Request) : Store :=
  reqs.foldl (fun st r => (step st r).2) s

/-- Number of ledger records whose `image_id` is `id`. -/
def ledgerCount (votes : List Vote) (id : Int) : Nat :=
  (votes.filter (fun v => v.image_id = SqlValue.int id)).length

/-- Number of ledger records whose `image_id` is `id` and whose value is
"hot". -/
def ledgerHotCount (votes : List Vote) (id : Int) : Nat :=
  (votes.filter (fun v => v.image_id = SqlValue.int id ∧ v.value = "hot")).length

/-- No vote of the sequence that carries a valid value names an integer id
that is absent from the images table at the time of the call and is one of
`final`. -/
def noEarlyVoteFor (final : List Int) : Store → List Request → Bool
  | _, [] => true
  | s, r :: rs =>
    (match r with
      | .vote _ (.int n) (.str v) =>
        !(["hot", "not"].contains v) || decide (n ∈ s.images.map (·.id)) || !decide (n ∈ final)
      | _ => true) && noEarlyVoteFor final (step s r).2 rs

/-- No vote of the sequence that carries a valid value names an image id that
a later upload of the sequence receives: the id is in use at the time of the
call, or no image has it after the whole sequence. -/
def noEarlyVote (s : Store) (reqs : List Request) : Bool :=
  noEarlyVoteFor ((run s reqs).images.map (·.id)) s reqs

/-- The votes of a batch cast one after another on the same image id; each
entry is the clock reading and the value. -/
def castVotes (s : Store) (imageId : SqlValue) (batch : List (Nat × String)) : Store :=
  batch.foldl (fun st nv => (castVote st nv.1 imageId (.str nv.2)).2) s

/-! ## Predicates used in the statements -/

/-- The counters of one image are in range. -/
def CountersOk (im : Image) : Prop := 0 ≤ im.hot_votes ∧ im.hot_votes ≤ im.total_votes

/-- The counters of `im` agree with the ledger `votes`. -/
def MatchesLedger (votes : List Vote) (im : Image) : Prop :=
  im.total_votes = ledgerCount votes im.id ∧ im.hot_votes = ledgerHotCount votes im.id

/-- The store is consistent with respect to the ids `final`: every image's
counters agree with the ledger, and every ledger record that names an integer
id names an image of the store or an id outside `final`. -/
def Consistent (final : List Int) (s : Store) : Prop :=
  (∀ im ∈ s.images, MatchesLedger s.votes im) ∧
  (∀ v ∈ s.votes, ∀ n : Int, v.image_id = .int n →
    n ∈ s.images.map (·.id) ∨ n ∉ final)

/-- The ledger is ahead of the counters for id `n`: it holds a record with
that id, and more records than the total_votes of any image with that id. -/
def LedgerAhead (n : Int) (s : Store) : Prop :=
  1 ≤ ledgerCount s.votes n ∧
  ∀ im ∈ s.images, im.id = n → im.total_votes + 1 ≤ ledgerCount s.votes n

/-- The row `im` after `total` more votes on `imageId`, `hot` of them hot. -/
def addVotes (imageId : SqlValue) (total hot : Int) (im : Image) : Image :=
  if SqlValue.int im.id = imageId then
    { im with total_votes := im.total_votes + total, hot_votes := im.hot_votes + hot }
  else im

/-! ## Handlers that read -/

/-- A finite binary64 number: `m / 2 ^ k`, negated when `neg` is set (so
`neg` with `m = 0` is the number -0). -/
structure Float64 where
  neg : Bool
  m : Nat
  k : Nat
deriving DecidableEq, Repr

/-- The least `k`, searched upwards from `k`, with `2 ^ 52 * b ≤ a * 2 ^ k`:
the scaling that brings the quotient `a / b` to a 53-bit significand. -/
def findShift (a b : Nat) : Nat → Nat → Nat
  | 0, k => k
  | fuel + 1, k => if 2 ^ 52 * b ≤ a * 2 ^ k then k else findShift a b fuel (k + 1)

/-- Round the quotient `n / d` to the nearest integer, ties to the even
one. -/
def roundHalfEven (n d : Nat) : Nat :=
  let q := n / d
  let r := n % d
  if 2 * r < d then q
  else if d < 2 * r then q + 1
  else if q % 2 = 0 then q else q + 1

/-- The binary64 division of two integer-valued numbers below `2 ^ 53` in
magnitude with a nonzero divisor, as in JavaScript's
`hot_votes / total_votes` and in SQL's `CAST(hot_votes AS FLOAT) / total_votes`:
the exact quotient rounded to the nearest binary64 value of 53 significant
bits, ties to even (IEEE 754). -/
def fdiv (hot_votes total_votes : Int) : Float64 :=
  let a := hot_votes.natAbs
  let b := total_votes.natAbs
  let neg := decide (hot_votes < 0) != decide (total_votes < 0)
  if a = 0 then ⟨neg, 0, 0⟩
  else
    let k := findShift a b (53 + b) 0
    ⟨neg, roundHalfEven (a * 2 ^ k) b, k⟩

/-- The number of hundredths nearest to the magnitude `m / 2 ^ k`, the larger
one of two: the integer `n` that `Number.prototype.toFixed(2)` prints, and the
magnitude of what `ROUND(x, 2)` returns. -/
def toFixedDigits (x : Float64) : Nat := (200 * x.m + 2 ^ x.k) / 2 ^ (x.k + 1)

/-- The text `toFixed(2)` prints for `n` hundredths: the integer part, a
point, two decimals. -/
def renderFixed (n : Nat) : String :=
  Nat.repr (n / 100) ++ "." ++ Nat.repr (n % 100 / 10) ++ Nat.repr (n % 10)

/-- The method `Number.prototype.toFixed(2)` on a finite number below
`10 ^ 21` in magnitude: a minus sign for a number below zero, then the
nearest hundredth. -/
def toFixed (x : Float64) : String :=
  (if x.neg && x.m != 0 then "-" else "") ++ renderFixed (toFixedDigits x)

/-- The expression `row.total_votes ? (row.hot_votes / row.total_votes).toFixed(2) : null`
(src/app.js, line 63); `none` is `null`. -/
def rating (im : Image) : Option String :=
  if im.total_votes ≠ 0 then some (toFixed (fdiv im.hot_votes im.total_votes)) else none

/-- A row of the `GET /api/images` answer: the stored columns and the
derived `rating`. -/
structure ImageRow where
  image : Image
  rating : Option String
deriving DecidableEq, Repr

/-- Handler of `GET /api/images` (src/app.js, lines 58-67): every image in ascending id
order with its rating, and the store as the query leaves it. -/
def listImages (s : Store) : List ImageRow × Store :=
  (((s.images.insertionSort (fun a b => a.id ≤ b.id)).map fun im => ⟨im, rating im⟩), s)

/-- The column `ROUND(CAST(hot_votes AS FLOAT) / total_votes, 2) AS score`
(src/app.js, line 95), counted in hundredths: the binary64 quotient of the two
counters, rounded to the nearest hundredth, half away from zero. -/
def score (hot_votes total_votes : Int) : Int :=
  let x := fdiv hot_votes total_votes
  if x.neg then -(toFixedDigits x : Int) else toFixedDigits x

/-- A row of the `GET /api/top5` query (src/app.js, lines 93-98); `score` is
in hundredths. -/
structure RankRow where
  id : Int
  url : String
  total_votes : Int
  hot_votes : Int
  score : Int
deriving DecidableEq, Repr

/-- The projection `SELECT id, url, total_votes, hot_votes, ROUND(...) AS score`. -/
def toRankRow (im : Image) : RankRow :=
  ⟨im.id, im.url, im.total_votes, im.hot_votes, score im.hot_votes im.total_votes⟩

/-- The images the query keeps: `WHERE total_votes > 0`. -/
def qualifying (images : List Image) : List Image :=
  images.filter (fun im => 0 < im.total_votes)

/-- The rows `db.all` hands to the callback, in table order. -/
def rows (images : List Image) : List RankRow :=
  (qualifying images).map toRankRow

/-- The comparator `(a, b) => b.score - a.score`, read as "a may stand before
b": the difference is not positive. -/
def scoreDesc (a b : RankRow) : Prop := b.score ≤ a.score

instance : DecidableRel scoreDesc := fun a b => inferInstanceAs (Decidable (b.score ≤ a.score))

instance : IsTotal RankRow scoreDesc := ⟨fun a b => le_total b.score a.score⟩

instance : IsTrans RankRow scoreDesc :=
  ⟨fun _ _ _ hab hbc => le_trans (α := Int) hbc hab⟩

/-- The array `[...rows].sort((a, b) => b.score - a.score)`: a stable sort, rows of
equal score keep their order. -/
def sorted (images : List Image) : List RankRow :=
  (rows images).insertionSort scoreDesc

/-- The slice `sorted.slice(0, 5)`. -/
def topHot (images : List Image) : List RankRow :=
  (sorted images).take 5

/-- The slice `sorted.slice(-5).reverse()`. -/
def topNot (images : List Image) : List RankRow :=
  ((sorted images).drop ((sorted images).length - 5)).reverse

/-- The body of the `GET /api/top5` answer. -/
structure Rankings where
  hot : List RankRow
  not : List RankRow
deriving DecidableEq, Repr

/-- Handler of `GET /api/top5` (src/app.js, lines 92-107). -/
def getRankings (images : List Image) : Rankings :=
  ⟨topHot images, topNot images⟩

/-! ## Facts about single requests -/

theorem castVote_str (s : Store) (now : Nat) (imageId : SqlValue) (v : String)
    (hv : v = "hot" ∨ v = "not") :
    castVote s now imageId (.str v) =
      (.success, ⟨s.images.map (updateRow (if v = "hot" then 1 else 0) imageId),
        s.votes ++ [⟨nextId (s.votes.map (·.id)), imageId, v, now⟩]⟩) := by
  rcases hv with rfl | rfl <;> rfl

theorem castVote_invalid (s : Store) (now : Nat) (imageId : SqlValue) (vote : JsValue)
    (hv : vote ≠ .str "hot" ∧ vote ≠ .str "not") :
    castVote s now imageId vote = (.error 400 "Invalid vote type", s) := by
  cases vote with
  | undefined => rfl
  | other j => rfl
  | str v =>
    have h1 : v ≠ "hot" := fun h => hv.1 (by rw [h])
    have h2 : v ≠ "not" := fun h => hv.2 (by rw [h])
    simp [castVote, h1, h2]

theorem updateRow_id (isHot : Int) (imageId : SqlValue) (im : Image) :
    (updateRow isHot imageId im).id = im.id := by
  unfold updateRow; split <;> rfl

theorem map_updateRow_ids (isHot : Int) (imageId : SqlValue) (images : List Image) :
    (images.map (updateRow isHot imageId)).map (·.id) = images.map (·.id) := by
  simp [List.map_map, Function.comp_def, updateRow_id]

/-- C3. A vote value other than exactly "hot" or "not" (a missing value
included) is answered 400 "Invalid vote type" and leaves the store, images
and ledger alike, as it was; and castVote answers with an error only for such
values. -/
theorem castVote_rejects_exactly_invalid (s : Store) (now : Nat) (imageId : SqlValue)
    (vote : JsValue) :
    ((vote ≠ .str "hot" ∧ vote ≠ .str "not") →
        castVote s now imageId vote = (.error 400 "Invalid vote type", s)) ∧
    ((∃ status message, (castVote s now imageId vote).1 = .error status message) →
        (vote ≠ .str "hot" ∧ vote ≠ .str "not")) := by
  refine ⟨castVote_invalid s now imageId vote, ?_⟩
  rintro ⟨status, message, h⟩
  by_contra hne
  have hv : vote = .str "hot" ∨ vote = .str "not" := by
    by_cases h1 : vote = .str "hot"
    · exact Or.inl h1
    · by_cases h2 : vote = .str "not"
      · exact Or.inr h2
      · exact absurd ⟨h1, h2⟩ hne
  rcases hv with rfl | rfl
  · rw [castVote_str s now imageId "hot" (Or.inl rfl)] at h; cases h
  · rw [castVote_str s now imageId "not" (Or.inr rfl)] at h; cases h

theorem castVote_rejects_exactly_invalid_witness :
    castVote ⟨[⟨1, "a.png", "/uploads/a.png", 3, 1⟩], [⟨1, .int 1, "hot", 5⟩]⟩ 9 (.int 1)
        (.str "bogus") =
      (.error 400 "Invalid vote type",
        ⟨[⟨1, "a.png", "/uploads/a.png", 3, 1⟩], [⟨1, .int 1, "hot", 5⟩]⟩) ∧
    castVote ⟨[⟨1, "a.png", "/uploads/a.png", 3, 1⟩], [⟨1, .int 1, "hot", 5⟩]⟩ 9 (.int 1)
        .undefined =
      (.error 400 "Invalid vote type",
        ⟨[⟨1, "a.png", "/uploads/a.png", 3, 1⟩], [⟨1, .int 1, "hot", 5⟩]⟩) :=
  ⟨(castVote_rejects_exactly_invalid
      ⟨[⟨1, "a.png", "/uploads/a.png", 3, 1⟩], [⟨1, .int 1, "hot", 5⟩]⟩ 9 (.int 1)
      (.str "bogus")).1 (by decide),
   (castVote_rejects_exactly_invalid
      ⟨[⟨1, "a.png", "/uploads/a.png", 3, 1⟩], [⟨1, .int 1, "hot", 5⟩]⟩ 9 (.int 1)
      .undefined).1 (by decide)⟩

/-- C4. A valid vote appends exactly one ledger record (the given image id
and value, stamped with the current time) after the untouched earlier
records, and rewrites the image table row by row: a row keeps its id,
filename and url; a row with the voted id gains 1 in total_votes and 1 or 0
in hot_votes according to the value being "hot"; every other row is
unchanged. -/
theorem castVote_valid_effect (s : Store) (now : Nat) (imageId : SqlValue) (v : String)
    (hv : v = "hot" ∨ v = "not") :
    (castVote s now imageId (.str v)).1 = .success ∧
    (castVote s now imageId (.str v)).2.votes =
      s.votes ++ [⟨nextId (s.votes.map (·.id)), imageId, v, now⟩] ∧
    List.Forall₂
      (fun im im2 : Image =>
        im2.id = im.id ∧ im2.filename = im.filename ∧ im2.url = im.url ∧
        (SqlValue.int im.id = imageId →
          im2.total_votes = im.total_votes + 1 ∧
          im2.hot_votes = im.hot_votes + (if v = "hot" then 1 else 0)) ∧
        (SqlValue.int im.id ≠ imageId → im2 = im))
      s.images (castVote s now imageId (.str v)).2.images := by
  rw [castVote_str s now imageId v hv]
  refine ⟨rfl, rfl, ?_⟩
  simp only [List.forall₂_map_right_iff]
  apply List.forall₂_same.mpr
  intro im _
  unfold updateRow
  by_cases h : SqlValue.int im.id = imageId <;> simp [h]

theorem castVote_valid_effect_witness :
    (castVote ⟨[⟨1, "a.png", "/uploads/a.png", 0, 0⟩, ⟨2, "b.png", "/uploads/b.png", 3, 1⟩], []⟩
        7 (.int 2) (.str "hot")).2
      = ⟨[⟨1, "a.png", "/uploads/a.png", 0, 0⟩, ⟨2, "b.png", "/uploads/b.png", 4, 2⟩],
          [⟨1, .int 2, "hot", 7⟩]⟩ ∧
    (castVote ⟨[⟨1, "a.png", "/uploads/a.png", 0, 0⟩, ⟨2, "b.png", "/uploads/b.png", 3, 1⟩], []⟩
        7 (.int 2) (.str "hot")).1 = .success :=
  ⟨by decide,
   (castVote_valid_effect
      ⟨[⟨1, "a.png", "/uploads/a.png", 0, 0⟩, ⟨2, "b.png", "/uploads/b.png", 3, 1⟩], []⟩
      7 (.int 2) "hot" (Or.inl rfl)).1⟩

/-- C10, as the claim states it, fails: on the empty database a "hot" vote
for image id 1, which names no image, is answered `success`, not an error. -/
theorem castVote_unknown_id_reports_success :
    (∀ im ∈ emptyStore.images, SqlValue.int im.id ≠ SqlValue.int 1) ∧
    (castVote emptyStore 0 (.int 1) (.str "hot")).1 = .success ∧
    ¬ ∃ status message,
        (castVote emptyStore 0 (.int 1) (.str "hot")).1 = .error status message := by
  refine ⟨by decide, by decide, ?_⟩
  rintro ⟨status, message, h⟩
  rw [castVote_str emptyStore 0 (.int 1) "hot" (Or.inl rfl)] at h
  cases h

/-- C10, amended. A valid vote for an id that names no image is answered
`success`: the vote is appended to the ledger and no image changes. -/
theorem castVote_unknown_id_noop (s : Store) (now : Nat) (imageId : SqlValue) (v : String)
    (hv : v = "hot" ∨ v = "not") (hid : ∀ im ∈ s.images, SqlValue.int im.id ≠ imageId) :
    castVote s now imageId (.str v) =
      (.success, ⟨s.images, s.votes ++ [⟨nextId (s.votes.map (·.id)), imageId, v, now⟩]⟩) := by
  rw [castVote_str s now imageId v hv]
  congr 2
  conv_rhs => rw [← List.map_id s.images]
  apply List.map_congr_left
  intro im him
  simp [updateRow, hid im him]

theorem castVote_unknown_id_noop_witness :
    castVote ⟨[⟨1, "a.png", "/uploads/a.png", 0, 0⟩], []⟩ 3 (.other "abc") (.str "not") =
      (.success, ⟨[⟨1, "a.png", "/uploads/a.png", 0, 0⟩], [⟨1, .other "abc", "not", 3⟩]⟩) :=
  castVote_unknown_id_noop ⟨[⟨1, "a.png", "/uploads/a.png", 0, 0⟩], []⟩ 3 (.other "abc") "not"
    (Or.inr rfl) (by decide)

/-! ## Invariants of reachable states -/

theorem upload_some (s : Store) (filename : String) :
    upload s (some filename) =
      (.uploaded (nextId (s.images.map (·.id))) ("/uploads/" ++ filename),
        ⟨s.images ++ [⟨nextId (s.images.map (·.id)), filename, "/uploads/" ++ filename, 0, 0⟩],
          s.votes⟩) := rfl

theorem run_cons (s : Store) (r : Request) (rs : List Request) :
    run s (r :: rs) = run (step s r).2 rs := rfl

theorem castVote_preserves_countersOk (s : Store) (now : Nat) (imageId : SqlValue)
    (vote : JsValue) (h : ∀ im ∈ s.images, CountersOk im) :
    ∀ im ∈ (castVote s now imageId vote).2.images, CountersOk im := by
  by_cases hv : vote = .str "hot" ∨ vote = .str "not"
  · have hc : ∃ v, vote = .str v ∧ (v = "hot" ∨ v = "not") := by
      rcases hv with rfl | rfl
      · exact ⟨"hot", rfl, Or.inl rfl⟩
      · exact ⟨"not", rfl, Or.inr rfl⟩
    obtain ⟨v, rfl, hv2⟩ := hc
    rw [castVote_str s now imageId v hv2]
    intro im him
    simp only [List.mem_map] at him
    obtain ⟨im0, him0, rfl⟩ := him
    have h0 := h im0 him0
    unfold CountersOk at h0 ⊢
    unfold updateRow
    split
    · split <;> simp <;> omega
    · exact h0
  · rw [castVote_invalid s now imageId vote (by tauto)]
    exact h

theorem upload_preserves_countersOk (s : Store) (file : Option String)
    (h : ∀ im ∈ s.images, CountersOk im) :
    ∀ im ∈ (upload s file).2.images, CountersOk im := by
  cases file with
  | none => exact h
  | some filename =>
    rw [upload_some]
    intro im him
    simp only [List.mem_append, List.mem_singleton] at him
    rcases him with him | rfl
    · exact h im him
    · simp [CountersOk]

theorem run_preserves_countersOk (reqs : List Request) (s : Store)
    (h : ∀ im ∈ s.images, CountersOk im) :
    ∀ im ∈ (run s reqs).images, CountersOk im := by
  induction reqs generalizing s with
  | nil => exact h
  | cons r rs ih =>
    rw [run_cons]
    apply ih
    cases r with
    | upload file => exact upload_preserves_countersOk s file h
    | vote now imageId vote => exact castVote_preserves_countersOk s now imageId vote h

/-- C2. In every state reached from the empty database by uploads and votes,
every image has 0 ≤ hot_votes ≤ total_votes: an upload adds an image with
both counters at 0, and every castVote, valid or not, on a known id or not,
keeps the bound. -/
theorem reachable_counters_bounded :
    (∀ reqs : List Request, ∀ im ∈ (run emptyStore reqs).images,
        0 ≤ im.hot_votes ∧ im.hot_votes ≤ im.total_votes) ∧
    (∀ (s : Store) (filename : String), ∃ im : Image,
        (upload s (some filename)).2.images = s.images ++ [im] ∧
        im.total_votes = 0 ∧ im.hot_votes = 0) ∧
    (∀ (s : Store) (now : Nat) (imageId : SqlValue) (vote : JsValue),
        (∀ im ∈ s.images, 0 ≤ im.hot_votes ∧ im.hot_votes ≤ im.total_votes) →
        ∀ im ∈ (castVote s now imageId vote).2.images,
          0 ≤ im.hot_votes ∧ im.hot_votes ≤ im.total_votes) := by
  refine ⟨fun reqs => run_preserves_countersOk reqs emptyStore (by simp [emptyStore]), ?_, ?_⟩
  · intro s filename
    exact ⟨_, by rw [upload_some], rfl, rfl⟩
  · intro s now imageId vote h
    exact castVote_preserves_countersOk s now imageId vote h

theorem reachable_counters_bounded_witness :
    (run emptyStore
        [.upload (some "a.png"), .vote 1 (.int 1) (.str "hot"), .vote 2 (.int 9) (.str "hot"),
          .vote 3 (.int 1) (.str "maybe"), .vote 4 (.int 1) (.str "not")]).images =
      [⟨1, "a.png", "/uploads/a.png", 2, 1⟩] ∧
    ∀ im ∈ (run emptyStore
        [.upload (some "a.png"), .vote 1 (.int 1) (.str "hot"), .vote 2 (.int 9) (.str "hot"),
          .vote 3 (.int 1) (.str "maybe"), .vote 4 (.int 1) (.str "not")]).images,
      0 ≤ im.hot_votes ∧ im.hot_votes ≤ im.total_votes :=
  ⟨by decide, reachable_counters_bounded.1 _⟩

theorem ledgerCount_append (votes : List Vote) (v : Vote) (id : Int) :
    ledgerCount (votes ++ [v]) id =
      ledgerCount votes id + (if v.image_id = SqlValue.int id then 1 else 0) := by
  unfold ledgerCount
  rw [List.filter_append, List.length_append]
  by_cases h : v.image_id = SqlValue.int id <;> simp [List.filter_cons, h]

theorem ledgerHotCount_append (votes : List Vote) (v : Vote) (id : Int) :
    ledgerHotCount (votes ++ [v]) id =
      ledgerHotCount votes id +
        (if v.image_id = SqlValue.int id ∧ v.value = "hot" then 1 else 0) := by
  unfold ledgerHotCount
  rw [List.filter_append, List.length_append]
  by_cases h : v.image_id = SqlValue.int id ∧ v.value = "hot" <;> simp [List.filter_cons, h]

theorem ledgerCount_eq_zero (votes : List Vote) (id : Int)
    (h : ∀ v ∈ votes, v.image_id ≠ SqlValue.int id) : ledgerCount votes id = 0 := by
  unfold ledgerCount
  rw [List.length_eq_zero, List.filter_eq_nil_iff]
  intro v hv
  simpa using h v hv

theorem ledgerHotCount_le (votes : List Vote) (id : Int) :
    ledgerHotCount votes id ≤ ledgerCount votes id := by
  unfold ledgerHotCount ledgerCount
  apply List.Sublist.length_le
  apply List.monotone_filter_right
  intro v hv
  simp only [decide_eq_true_eq] at hv ⊢
  exact hv.1

theorem nextId_append_le (ids : List Int) (x : Int) : nextId ids ≤ nextId (ids ++ [x]) := by
  unfold nextId
  rw [List.foldl_append]
  simp

theorem le_foldl_max (ids : List Int) (init : Int) :
    init ≤ ids.foldl max init ∧ ∀ x ∈ ids, x ≤ ids.foldl max init := by
  induction ids generalizing init with
  | nil => simp
  | cons a l ih =>
    simp only [List.foldl_cons, List.mem_cons, forall_eq_or_imp]
    have h := ih (max init a)
    refine ⟨le_trans (le_max_left _ _) h.1, le_trans (le_max_right _ _) h.1, h.2⟩

theorem lt_nextId (ids : List Int) (x : Int) (hx : x ∈ ids) : x < nextId ids := by
  have := (le_foldl_max ids 0).2 x hx
  unfold nextId; omega

theorem castVote_ids (s : Store) (now : Nat) (imageId : SqlValue) (vote : JsValue) :
    (castVote s now imageId vote).2.images.map (·.id) = s.images.map (·.id) := by
  by_cases hv : vote = .str "hot" ∨ vote = .str "not"
  · have hc : ∃ v, vote = .str v ∧ (v = "hot" ∨ v = "not") := by
      rcases hv with rfl | rfl
      · exact ⟨"hot", rfl, Or.inl rfl⟩
      · exact ⟨"not", rfl, Or.inr rfl⟩
    obtain ⟨v, rfl, hv2⟩ := hc
    rw [castVote_str s now imageId v hv2]
    exact map_updateRow_ids _ _ _
  · rw [castVote_invalid s now imageId vote (by tauto)]

theorem step_ids_subset (s : Store) (r : Request) :
    ∀ n ∈ s.images.map (·.id), n ∈ (step s r).2.images.map (·.id) := by
  intro n hn
  cases r with
  | upload file =>
    cases file with
    | none => exact hn
    | some filename =>
      show n ∈ (upload s (some filename)).2.images.map (·.id)
      rw [upload_some, List.map_append]
      exact List.mem_append_left _ hn
  | vote now imageId vote =>
    show n ∈ (castVote s now imageId vote).2.images.map (·.id)
    rw [castVote_ids]
    exact hn

theorem run_ids_subset (reqs : List Request) (s : Store) :
    ∀ n ∈ s.images.map (·.id), n ∈ (run s reqs).images.map (·.id) := by
  induction reqs generalizing s with
  | nil => exact fun n hn => hn
  | cons r rs ih =>
    intro n hn
    rw [run_cons]
    exact ih _ n (step_ids_subset s r n hn)

theorem upload_preserves_consistent (final : List Int) (s : Store) (file : Option String)
    (h : Consistent final s)
    (hfin : ∀ n ∈ (upload s file).2.images.map (·.id), n ∈ final) :
    Consistent final (upload s file).2 := by
  cases file with
  | none => exact h
  | some filename =>
    rw [upload_some] at hfin ⊢
    obtain ⟨h1, h2⟩ := h
    refine ⟨?_, ?_⟩
    · intro im him
      simp only [List.mem_append, List.mem_singleton] at him
      rcases him with him | rfl
      · exact h1 im him
      · have hz : ledgerCount s.votes (nextId (s.images.map (·.id))) = 0 := by
          apply ledgerCount_eq_zero
          intro v hv heq
          rcases h2 v hv _ heq with hin | hout
          · exact lt_irrefl _ (lt_nextId _ _ hin)
          · apply hout
            apply hfin
            simp
        have hz2 := ledgerHotCount_le s.votes (nextId (s.images.map (·.id)))
        simp only [MatchesLedger]
        omega
    · intro v hv n hn
      rcases h2 v hv n hn with hin | hout
      · left
        simp only [List.map_append]
        exact List.mem_append_left _ hin
      · exact Or.inr hout

theorem castVote_preserves_consistent (final : List Int) (s : Store) (now : Nat)
    (imageId : SqlValue) (v : String) (hv : v = "hot" ∨ v = "not")
    (hid : ∀ n : Int, imageId = .int n → n ∈ s.images.map (·.id) ∨ n ∉ final)
    (h : Consistent final s) : Consistent final (castVote s now imageId (.str v)).2 := by
  rw [castVote_str s now imageId v hv]
  obtain ⟨h1, h2⟩ := h
  refine ⟨?_, ?_⟩
  · intro im him
    simp only [List.mem_map] at him
    obtain ⟨im0, him0, rfl⟩ := him
    obtain ⟨ht, hh⟩ := h1 im0 him0
    simp only [MatchesLedger, updateRow_id, ledgerCount_append, ledgerHotCount_append]
    unfold updateRow
    by_cases hm : SqlValue.int im0.id = imageId
    · subst hm
      by_cases hhot : v = "hot"
      · simp [hhot, ht, hh]
      · simp [hhot, ht, hh]
    · have hm2 : ¬ imageId = SqlValue.int im0.id := fun e => hm e.symm
      simp [hm, hm2, ht, hh]
  · intro w hw n hn
    simp only [map_updateRow_ids]
    simp only [List.mem_append, List.mem_singleton] at hw
    rcases hw with hw | rfl
    · exact h2 w hw n hn
    · exact hid n hn

theorem run_preserves_consistent (reqs : List Request) (final : List Int) (s : Store)
    (h : Consistent final s)
    (hfin : ∀ n ∈ (run s reqs).images.map (·.id), n ∈ final)
    (hreqs : noEarlyVoteFor final s reqs = true) : Consistent final (run s reqs) := by
  induction reqs generalizing s with
  | nil => exact h
  | cons r rs ih =>
    rw [run_cons] at hfin ⊢
    simp only [noEarlyVoteFor, Bool.and_eq_true] at hreqs
    apply ih _ _ hfin hreqs.2
    cases r with
    | upload file =>
      exact upload_preserves_consistent final s file h
        (fun n hn => hfin n (run_ids_subset rs _ n hn))
    | vote now imageId vote =>
      show Consistent final (castVote s now imageId vote).2
      by_cases hv : vote = .str "hot" ∨ vote = .str "not"
      · have hc : ∃ v, vote = .str v ∧ (v = "hot" ∨ v = "not") := by
          rcases hv with rfl | rfl
          · exact ⟨"hot", rfl, Or.inl rfl⟩
          · exact ⟨"not", rfl, Or.inr rfl⟩
        obtain ⟨v, rfl, hv2⟩ := hc
        apply castVote_preserves_consistent final s now imageId v hv2 _ h
        intro n hn
        subst hn
        have h3 := hreqs.1
        rcases hv2 with rfl | rfl <;> simpa using h3
      · rw [castVote_invalid s now imageId vote (by tauto)]
        exact h

theorem ledgerCount_append_le (votes : List Vote) (v : Vote) (id : Int) :
    ledgerCount votes id ≤ ledgerCount (votes ++ [v]) id := by
  rw [ledgerCount_append]; omega

theorem step_preserves_ledgerAhead (n : Int) (s : Store) (r : Request)
    (h : LedgerAhead n s) : LedgerAhead n (step s r).2 := by
  obtain ⟨h1, h2⟩ := h
  cases r with
  | upload file =>
    cases file with
    | none => exact ⟨h1, h2⟩
    | some filename =>
      show LedgerAhead n (upload s (some filename)).2
      rw [upload_some]
      refine ⟨h1, ?_⟩
      intro im him hid
      simp only [List.mem_append, List.mem_singleton] at him
      rcases him with him | rfl
      · exact h2 im him hid
      · simp only [zero_add]
        exact_mod_cast h1
  | vote now imageId vote =>
    show LedgerAhead n (castVote s now imageId vote).2
    by_cases hv : vote = .str "hot" ∨ vote = .str "not"
    · have hc : ∃ v, vote = .str v ∧ (v = "hot" ∨ v = "not") := by
        rcases hv with rfl | rfl
        · exact ⟨"hot", rfl, Or.inl rfl⟩
        · exact ⟨"not", rfl, Or.inr rfl⟩
      obtain ⟨v, rfl, hv2⟩ := hc
      rw [castVote_str s now imageId v hv2]
      refine ⟨le_trans h1 (ledgerCount_append_le _ _ _), ?_⟩
      intro im him hid
      simp only [List.mem_map] at him
      obtain ⟨im0, him0, rfl⟩ := him
      rw [updateRow_id] at hid
      have h0 := h2 im0 him0 hid
      rw [ledgerCount_append]
      unfold updateRow
      by_cases hm : SqlValue.int im0.id = imageId
      · have hm2 : imageId = SqlValue.int n := by rw [← hm, hid]
        simp only [hm, if_true, hm2]
        push_cast
        omega
      · simp only [hm, if_false]
        push_cast
        split <;> omega
    · rw [castVote_invalid s now imageId vote (by tauto)]
      exact ⟨h1, h2⟩

theorem run_preserves_ledgerAhead (n : Int) (reqs : List Request) (s : Store)
    (h : LedgerAhead n s) : LedgerAhead n (run s reqs) := by
  induction reqs generalizing s with
  | nil => exact h
  | cons r rs ih =>
    rw [run_cons]
    exact ih _ (step_preserves_ledgerAhead n s r h)

theorem early_vote_ledgerAhead (reqs : List Request) (final : List Int) (s : Store)
    (hreqs : noEarlyVoteFor final s reqs = false) :
    ∃ n ∈ final, LedgerAhead n (run s reqs) := by
  induction reqs generalizing s with
  | nil => simp [noEarlyVoteFor] at hreqs
  | cons r rs ih =>
    rw [run_cons]
    simp only [noEarlyVoteFor, Bool.and_eq_false_iff] at hreqs
    rcases hreqs with hhead | htail
    · cases r with
      | upload file => simp at hhead
      | vote now imageId vote =>
        cases imageId with
        | other raw => simp at hhead
        | int n =>
          cases vote with
          | undefined => simp at hhead
          | other json => simp at hhead
          | str v =>
            simp only [Bool.or_eq_false_iff, Bool.not_eq_false', decide_eq_false_iff_not,
              Bool.not_eq_false, decide_eq_true_eq] at hhead
            obtain ⟨⟨hvalid, hnot⟩, hfin⟩ := hhead
            have hv : v = "hot" ∨ v = "not" := by simpa using hvalid
            refine ⟨n, hfin, run_preserves_ledgerAhead n rs _ ?_⟩
            show LedgerAhead n (castVote s now (.int n) (.str v)).2
            rw [castVote_str s now (.int n) v hv]
            refine ⟨?_, ?_⟩
            · rw [ledgerCount_append]; simp
            · intro im him hid
              exfalso
              apply hnot
              simp only [List.mem_map] at him
              obtain ⟨im0, him0, rfl⟩ := him
              rw [updateRow_id] at hid
              exact List.mem_map.mpr ⟨im0, him0, hid⟩
    · exact ih _ htail

/-- C1, as the claim states it, fails: a "hot" vote for image id 1 on the
empty database followed by one upload leaves image 1 with total_votes 0 and
hot_votes 0 while the ledger holds one "hot" record with image_id 1. -/
theorem ledger_mismatch_after_early_vote :
    (run emptyStore [.vote 0 (.int 1) (.str "hot"), .upload (some "a.png")]) =
      ⟨[⟨1, "a.png", "/uploads/a.png", 0, 0⟩], [⟨1, .int 1, "hot", 0⟩]⟩ ∧
    ¬ (∀ im ∈ (run emptyStore [.vote 0 (.int 1) (.str "hot"), .upload (some "a.png")]).images,
        im.total_votes =
          ledgerCount
            (run emptyStore [.vote 0 (.int 1) (.str "hot"), .upload (some "a.png")]).votes im.id ∧
        im.hot_votes =
          ledgerHotCount
            (run emptyStore [.vote 0 (.int 1) (.str "hot"), .upload (some "a.png")]).votes
            im.id) := by
  decide

/-- C1, amended. In every state reached from the empty database by uploads
and castVote calls (any vote value, any image id, existing or not) among
which no vote with a valid value names an image id that a later upload of
the sequence receives, every image's total_votes is the number of ledger
records with its id and its hot_votes the number of those with value
"hot". -/
theorem reachable_counters_match_ledger (reqs : List Request)
    (hreqs : noEarlyVote emptyStore reqs = true) :
    ∀ im ∈ (run emptyStore reqs).images,
      im.total_votes = ledgerCount (run emptyStore reqs).votes im.id ∧
      im.hot_votes = ledgerHotCount (run emptyStore reqs).votes im.id :=
  (run_preserves_consistent reqs _ emptyStore
    ⟨by simp [emptyStore], by simp [emptyStore]⟩ (fun _ hn => hn) hreqs).1

theorem reachable_counters_match_ledger_witness :
    noEarlyVote emptyStore
        [.vote 0 (.int 9) (.str "hot"), .upload (some "a.png"), .vote 1 (.int 1) (.str "hot"),
          .vote 2 (.int 1) (.other "7"), .vote 3 (.other "x") (.str "not"),
          .vote 4 (.int 1) (.str "not"), .vote 5 (.int 2) (.str "not")] = true ∧
    (run emptyStore
        [.vote 0 (.int 9) (.str "hot"), .upload (some "a.png"), .vote 1 (.int 1) (.str "hot"),
          .vote 2 (.int 1) (.other "7"), .vote 3 (.other "x") (.str "not"),
          .vote 4 (.int 1) (.str "not"), .vote 5 (.int 2) (.str "not")]).images =
      [⟨1, "a.png", "/uploads/a.png", 2, 1⟩] ∧
    ∀ im ∈ (run emptyStore
        [.vote 0 (.int 9) (.str "hot"), .upload (some "a.png"), .vote 1 (.int 1) (.str "hot"),
          .vote 2 (.int 1) (.other "7"), .vote 3 (.other "x") (.str "not"),
          .vote 4 (.int 1) (.str "not"), .vote 5 (.int 2) (.str "not")]).images,
      im.total_votes = ledgerCount (run emptyStore
        [.vote 0 (.int 9) (.str "hot"), .upload (some "a.png"), .vote 1 (.int 1) (.str "hot"),
          .vote 2 (.int 1) (.other "7"), .vote 3 (.other "x") (.str "not"),
          .vote 4 (.int 1) (.str "not"), .vote 5 (.int 2) (.str "not")]).votes im.id ∧
      im.hot_votes = ledgerHotCount (run emptyStore
        [.vote 0 (.int 9) (.str "hot"), .upload (some "a.png"), .vote 1 (.int 1) (.str "hot"),
          .vote 2 (.int 1) (.other "7"), .vote 3 (.other "x") (.str "not"),
          .vote 4 (.int 1) (.str "not"), .vote 5 (.int 2) (.str "not")]).votes im.id :=
  ⟨by decide, by decide, reachable_counters_match_ledger _ (by decide)⟩

/-- The restriction on the sequence cannot be relaxed: whenever some vote with
a valid value names an id that a later upload of the sequence receives, the
image with that id ends with fewer total_votes than the ledger has records
for it. -/
theorem early_vote_breaks_ledger (reqs : List Request)
    (hreqs : noEarlyVote emptyStore reqs = false) :
    ∃ im ∈ (run emptyStore reqs).images,
      im.total_votes < ledgerCount (run emptyStore reqs).votes im.id := by
  obtain ⟨n, hn, h⟩ := early_vote_ledgerAhead reqs _ emptyStore hreqs
  obtain ⟨im, him, hid⟩ := List.mem_map.mp hn
  refine ⟨im, him, ?_⟩
  have := h.2 im him hid
  rw [hid]
  omega

/-! ## Batches of votes on one image -/

theorem castVotes_nil (s : Store) (imageId : SqlValue) : castVotes s imageId [] = s := rfl

theorem castVotes_cons (s : Store) (imageId : SqlValue) (nv : Nat × String)
    (batch : List (Nat × String)) :
    castVotes s imageId (nv :: batch) =
      castVotes (castVote s nv.1 imageId (.str nv.2)).2 imageId batch := rfl

theorem addVotes_updateRow (imageId : SqlValue) (total hot isHot : Int) (im : Image) :
    addVotes imageId total hot (updateRow isHot imageId im) =
      addVotes imageId (total + 1) (hot + isHot) im := by
  unfold addVotes updateRow
  by_cases h : SqlValue.int im.id = imageId
  · simp only [h, if_true]
    congr 1 <;> ring
  · simp [h]

theorem castVotes_images (batch : List (Nat × String)) (s : Store) (imageId : SqlValue)
    (hvalid : ∀ nv ∈ batch, nv.2 = "hot" ∨ nv.2 = "not") :
    (castVotes s imageId batch).images =
      s.images.map (addVotes imageId batch.length ((batch.map Prod.snd).count "hot")) := by
  induction batch generalizing s with
  | nil =>
    simp only [castVotes_nil, List.length_nil, List.map_nil, List.count_nil, Nat.cast_zero]
    conv_lhs => rw [← List.map_id s.images]
    apply List.map_congr_left
    intro im _
    unfold addVotes
    split <;> simp
  | cons nv rest ih =>
    rw [castVotes_cons, ih _ (fun x hx => hvalid x (List.mem_cons_of_mem _ hx)),
      castVote_str s nv.1 imageId nv.2 (hvalid nv (List.mem_cons_self _ _))]
    simp only [List.map_map]
    apply List.map_congr_left
    intro im _
    simp only [Function.comp_apply, addVotes_updateRow, List.length_cons, List.map_cons,
      List.count_cons, Nat.cast_add, Nat.cast_one]
    by_cases hh : nv.2 = "hot" <;> simp [hh]

/-- C5. Valid votes cast one after another on one image id raise the
total_votes of every row with that id by the number of votes and its
hot_votes by the number of "hot" ones, keep its id, filename and url, and
leave every other row alone; so two batches whose values are permutations of
each other end with the same image table. In particular "hot" then "not" and
"not" then "hot" both end with the image table of +2 total and +1 hot. -/
theorem castVotes_counters (s : Store) (imageId : SqlValue) (batch : List (Nat × String))
    (hvalid : ∀ nv ∈ batch, nv.2 = "hot" ∨ nv.2 = "not") :
    List.Forall₂
      (fun im im2 : Image =>
        im2.id = im.id ∧ im2.filename = im.filename ∧ im2.url = im.url ∧
        (SqlValue.int im.id = imageId →
          im2.total_votes = im.total_votes + batch.length ∧
          im2.hot_votes = im.hot_votes + (batch.map Prod.snd).count "hot") ∧
        (SqlValue.int im.id ≠ imageId → im2 = im))
      s.images (castVotes s imageId batch).images ∧
    (∀ batch2 : List (Nat × String), (batch.map Prod.snd).Perm (batch2.map Prod.snd) →
      (castVotes s imageId batch2).images = (castVotes s imageId batch).images) ∧
    (∀ now1 now2 : Nat,
      (castVote (castVote s now1 imageId (.str "hot")).2 now2 imageId (.str "not")).2.images =
        s.images.map (addVotes imageId 2 1) ∧
      (castVote (castVote s now1 imageId (.str "not")).2 now2 imageId (.str "hot")).2.images =
        s.images.map (addVotes imageId 2 1)) := by
  refine ⟨?_, ?_, ?_⟩
  · rw [castVotes_images batch s imageId hvalid]
    simp only [List.forall₂_map_right_iff]
    apply List.forall₂_same.mpr
    intro im _
    unfold addVotes
    by_cases h : SqlValue.int im.id = imageId <;> simp [h]
  · intro batch2 hperm
    have hvalid2 : ∀ nv ∈ batch2, nv.2 = "hot" ∨ nv.2 = "not" := by
      intro nv hnv
      have hm : nv.2 ∈ batch.map Prod.snd :=
        hperm.symm.subset (List.mem_map_of_mem Prod.snd hnv)
      obtain ⟨x, hx, hx2⟩ := List.mem_map.mp hm
      rw [← hx2]
      exact hvalid x hx
    rw [castVotes_images batch s imageId hvalid, castVotes_images batch2 s imageId hvalid2]
    have hlen : batch2.length = batch.length := by
      have := hperm.length_eq
      simpa using this.symm
    rw [hlen, hperm.count_eq]
  · intro now1 now2
    have h1 := castVotes_images [(now1, "hot"), (now2, "not")] s imageId (by simp)
    have h2 := castVotes_images [(now1, "not"), (now2, "hot")] s imageId (by simp)
    exact ⟨h1, h2⟩

theorem castVotes_counters_witness :
    (castVotes ⟨[⟨1, "a.png", "/uploads/a.png", 0, 0⟩, ⟨2, "b.png", "/uploads/b.png", 3, 1⟩], []⟩
        (.int 2) [(5, "hot"), (6, "not"), (7, "hot")]).images =
      [⟨1, "a.png", "/uploads/a.png", 0, 0⟩, ⟨2, "b.png", "/uploads/b.png", 6, 3⟩] ∧
    (castVotes ⟨[⟨1, "a.png", "/uploads/a.png", 0, 0⟩, ⟨2, "b.png", "/uploads/b.png", 3, 1⟩], []⟩
        (.int 2) [(5, "not"), (6, "hot"), (7, "hot")]).images =
      (castVotes ⟨[⟨1, "a.png", "/uploads/a.png", 0, 0⟩, ⟨2, "b.png", "/uploads/b.png", 3, 1⟩], []⟩
        (.int 2) [(5, "hot"), (6, "not"), (7, "hot")]).images :=
  ⟨by decide,
   (castVotes_counters
      ⟨[⟨1, "a.png", "/uploads/a.png", 0, 0⟩, ⟨2, "b.png", "/uploads/b.png", 3, 1⟩], []⟩
      (.int 2) [(5, "hot"), (6, "not"), (7, "hot")] (by decide)).2.1
      [(5, "not"), (6, "hot"), (7, "hot")] (by decide)⟩

/-! ## Ratings -/

theorem roundHalfEven_spec_aux (N b : Nat) (hb : 0 < b) (m : Nat)
    (hm : m = (if 2 * (N % b) < b then N / b
      else if b < 2 * (N % b) then N / b + 1
      else if (N / b) % 2 = 0 then N / b else N / b + 1)) :
    2 * (m * b) ≤ 2 * N + b ∧ 2 * N ≤ 2 * (m * b) + b := by
  have hN : b * (N / b) + N % b = N := Nat.div_add_mod N b
  have hr : N % b < b := Nat.mod_lt N hb
  generalize N / b = q at hm hN
  generalize N % b = r at hm hN hr
  have e1 : q * b = b * q := Nat.mul_comm _ _
  have e2 : (q + 1) * b = b * q + b := by ring
  subst hm
  split_ifs <;> simp only [e1, e2] <;> omega

theorem fixed_nearest (a b m K n : Nat) (hb : 0 < b) (ha : 200 * a < 2 ^ 53)
    (hK : 2 ^ 52 * b ≤ a * K)
    (hm1 : 2 * (m * b) ≤ 2 * (a * K) + b) (hm2 : 2 * (a * K) ≤ 2 * (m * b) + b)
    (hn1 : 2 * K * n ≤ 200 * m + K) (hn2 : 200 * m + K < 2 * K * n + 2 * K) :
    2 * n * b ≤ 200 * a + b ∧ 200 * a ≤ 2 * n * b + b := by
  have hKb : ¬ K ≤ 100 * b := by
    intro h
    have h1 : a * K ≤ a * (100 * b) := Nat.mul_le_mul_left a h
    have h2 : 200 * a * b < 2 ^ 53 * b := Nat.mul_lt_mul_of_pos_right ha hb
    have e : a * (100 * b) * 2 = 200 * a * b := by ring
    omega
  constructor
  · by_contra hc
    have hc1 : 200 * a + b + 1 ≤ 2 * n * b := by omega
    have h1 : (200 * a + b + 1) * K ≤ 2 * n * b * K := Nat.mul_le_mul_right K hc1
    have h2 : 2 * K * n * b ≤ (200 * m + K) * b := Nat.mul_le_mul_right b hn1
    have e1 : (200 * a + b + 1) * K = 200 * (a * K) + b * K + K := by ring
    have e2 : 2 * n * b * K = 2 * K * n * b := by ring
    have e3 : (200 * m + K) * b = 200 * (m * b) + b * K := by ring
    omega
  · by_contra hc
    have hc1 : 2 * n * b + b + 1 ≤ 200 * a := by omega
    have h1 : (2 * n * b + b + 1) * K ≤ 200 * a * K := Nat.mul_le_mul_right K hc1
    have h2 : (200 * m + K) * b < (2 * K * n + 2 * K) * b := Nat.mul_lt_mul_of_pos_right hn2 hb
    have e1 : (2 * n * b + b + 1) * K = 2 * K * n * b + b * K + K := by ring
    have e2 : 200 * a * K = 200 * (a * K) := by ring
    have e3 : (200 * m + K) * b = 200 * (m * b) + b * K := by ring
    have e4 : (2 * K * n + 2 * K) * b = 2 * K * n * b + 2 * (b * K) := by ring
    omega

theorem findShift_spec (a b : Nat) (fuel k : Nat) (h : 2 ^ 52 * b ≤ a * 2 ^ (k + fuel)) :
    2 ^ 52 * b ≤ a * 2 ^ (findShift a b fuel k) := by
  induction fuel generalizing k with
  | zero => simpa [findShift] using h
  | succ fuel ih =>
    unfold findShift
    split
    · assumption
    · apply ih
      have e : k + 1 + fuel = k + (fuel + 1) := by omega
      rw [e]; exact h

theorem findShift_enough (a b : Nat) (ha : 0 < a) :
    2 ^ 52 * b ≤ a * 2 ^ (findShift a b (53 + b) 0) := by
  apply findShift_spec
  have h1 : b < 2 ^ b := Nat.lt_two_pow b
  have h2 : 2 ^ (0 + (53 + b)) = 2 ^ 53 * 2 ^ b := by rw [Nat.zero_add, pow_add]
  rw [h2]
  have h3 : 2 ^ 52 * b ≤ 2 ^ 53 * 2 ^ b :=
    Nat.mul_le_mul (Nat.pow_le_pow_right (by norm_num) (by norm_num)) h1.le
  calc 2 ^ 52 * b ≤ 1 * (2 ^ 53 * 2 ^ b) := by rw [Nat.one_mul]; exact h3
    _ ≤ a * (2 ^ 53 * 2 ^ b) := Nat.mul_le_mul_right _ ha

theorem toFixedDigits_fdiv_nearest (a b : Nat) (hb : 0 < b) (ha : 200 * a < 2 ^ 53) :
    2 * toFixedDigits (fdiv a b) * b ≤ 200 * a + b ∧
    200 * a ≤ 2 * toFixedDigits (fdiv a b) * b + b := by
  by_cases h0 : a = 0
  · subst h0
    have : toFixedDigits (fdiv ((0 : Nat) : Int) (b : Int)) = 0 := by
      simp [fdiv, toFixedDigits]
    rw [this]; omega
  · have hpos : 0 < a := Nat.pos_of_ne_zero h0
    have hK := findShift_enough a b hpos
    have hfd : fdiv (a : Int) (b : Int) =
        ⟨false, roundHalfEven (a * 2 ^ (findShift a b (53 + b) 0)) b,
          findShift a b (53 + b) 0⟩ := by
      have hna : ¬ ((a : Int) < 0) := by omega
      have hnb : ¬ ((b : Int) < 0) := by omega
      simp [fdiv, h0, hna, hnb]
    rw [hfd]
    generalize findShift a b (53 + b) 0 = k at hK
    obtain ⟨hm1, hm2⟩ := roundHalfEven_spec_aux (a * 2 ^ k) b hb
      (roundHalfEven (a * 2 ^ k) b) rfl
    generalize roundHalfEven (a * 2 ^ k) b = m at hm1 hm2
    simp only [toFixedDigits]
    have e : 2 ^ (k + 1) = 2 * 2 ^ k := by rw [pow_succ]; ring
    rw [e]
    have hpk : 0 < 2 * 2 ^ k := by positivity
    have hd := Nat.div_add_mod (200 * m + 2 ^ k) (2 * 2 ^ k)
    have hr := Nat.mod_lt (200 * m + 2 ^ k) hpk
    generalize (200 * m + 2 ^ k) / (2 * 2 ^ k) = n at hd ⊢
    generalize (200 * m + 2 ^ k) % (2 * 2 ^ k) = r at hd hr
    apply fixed_nearest a b m (2 ^ k) n hb ha hK hm1 hm2 <;> omega

theorem fdiv_neg (h t : Int) : (fdiv h t).neg = (decide (h < 0) != decide (t < 0)) := by
  unfold fdiv
  simp only
  split <;> rfl

theorem toFixed_of_nonneg (h t : Int) (hh : 0 ≤ h) (ht : 0 < t) :
    toFixed (fdiv h t) = renderFixed (toFixedDigits (fdiv h t)) := by
  have hn : (fdiv h t).neg = false := by
    rw [fdiv_neg]
    have h1 : ¬ h < 0 := by omega
    have h2 : ¬ t < 0 := by omega
    simp [h1, h2]
  unfold toFixed
  rw [hn]
  simp

/-- C9. Listing the images leaves the store as it was and returns the stored
rows, each with the rating computed from its own counters. The rating is
null when total_votes = 0 and a two-decimal text otherwise. For counters in
the range where JavaScript numbers hold them exactly (0 ≤ hot_votes with
200 * hot_votes < 2 ^ 53, 0 < total_votes < 2 ^ 53) the text shows n
hundredths with n / 100 within half a hundredth of hot_votes / total_votes,
that is, the quotient rounded to 2 decimal places. For hot_votes = 3 and
total_votes = 4 the rating is "0.75". -/
theorem listImages_rating :
    (∀ s : Store, (listImages s).2 = s) ∧
    (∀ s : Store, ((listImages s).1.map (·.image)).Perm s.images) ∧
    (∀ s : Store, ∀ row ∈ (listImages s).1, row.rating = rating row.image) ∧
    (∀ im : Image, im.total_votes = 0 → rating im = none) ∧
    (∀ im : Image, im.total_votes ≠ 0 → (rating im).isSome = true) ∧
    (∀ im : Image, 0 ≤ im.hot_votes → 200 * im.hot_votes < 2 ^ 53 →
      0 < im.total_votes → im.total_votes < 2 ^ 53 →
      ∃ n : Nat, rating im = some (renderFixed n) ∧
        2 * (n : Int) * im.total_votes ≤ 200 * im.hot_votes + im.total_votes ∧
        200 * im.hot_votes ≤ 2 * (n : Int) * im.total_votes + im.total_votes) ∧
    (∀ (id : Int) (filename url : String), rating ⟨id, filename, url, 4, 3⟩ = some "0.75") := by
  refine ⟨fun _ => rfl, ?_, ?_, ?_, ?_, ?_, ?_⟩
  · intro s
    simp only [listImages, List.map_map]
    have : (fun im : Image => (⟨im, rating im⟩ : ImageRow).image) = id := rfl
    rw [show ((fun x : ImageRow => x.image) ∘ fun im => (⟨im, rating im⟩ : ImageRow)) = id from rfl,
      List.map_id]
    exact List.perm_insertionSort _ _
  · intro s row hrow
    simp only [listImages, List.mem_map] at hrow
    obtain ⟨im, _, rfl⟩ := hrow
    rfl
  · intro im h
    simp [rating, h]
  · intro im h
    simp [rating, h]
  · intro im hh hh2 ht _
    obtain ⟨a, ha⟩ := Int.eq_ofNat_of_zero_le hh
    obtain ⟨b, hb⟩ := Int.eq_ofNat_of_zero_le ht.le
    refine ⟨toFixedDigits (fdiv im.hot_votes im.total_votes), ?_, ?_⟩
    · have hne : im.total_votes ≠ 0 := by omega
      simp only [rating, hne, ne_eq, not_false_eq_true, if_true]
      rw [toFixed_of_nonneg _ _ hh ht]
    · rw [ha] at hh2
      rw [hb] at ht
      rw [ha, hb]
      have hb0 : 0 < b := by exact_mod_cast ht
      have ha2 : 200 * a < 2 ^ 53 := by exact_mod_cast hh2
      obtain ⟨h1, h2⟩ := toFixedDigits_fdiv_nearest a b hb0 ha2
      constructor
      · exact_mod_cast h1
      · exact_mod_cast h2
  · intro id filename url
    show (if (4 : Int) ≠ 0 then some (toFixed (fdiv 3 4)) else none) = some "0.75"
    decide

theorem listImages_rating_witness :
    rating ⟨1, "a.png", "/uploads/a.png", 3, 2⟩ = some "0.67" ∧
    ∃ n : Nat, rating ⟨1, "a.png", "/uploads/a.png", 3, 2⟩ = some (renderFixed n) ∧
      2 * (n : Int) * 3 ≤ 200 * 2 + 3 ∧ 200 * 2 ≤ 2 * (n : Int) * 3 + 3 :=
  ⟨by decide,
   listImages_rating.2.2.2.2.2.1 ⟨1, "a.png", "/uploads/a.png", 3, 2⟩
     (by decide) (by decide) (by decide) (by decide)⟩

/-- Quotients that lie exactly between two hundredths: 1/8 is a binary64 number
and goes up, 3/200 is not and its binary64 neighbour lies below the
midpoint. -/
theorem rating_midpoints :
    rating ⟨1, "a.png", "/uploads/a.png", 8, 1⟩ = some "0.13" ∧
    rating ⟨1, "a.png", "/uploads/a.png", 200, 3⟩ = some "0.01" := by
  decide

/-! ## Leaderboards -/

theorem sorted_perm (images : List Image) : (sorted images).Perm (rows images) :=
  List.perm_insertionSort scoreDesc (rows images)

theorem sorted_length (images : List Image) :
    (sorted images).length = (qualifying images).length := by
  rw [(sorted_perm images).length_eq, rows, List.length_map]

theorem sorted_pairwise (images : List Image) :
    (sorted images).Pairwise (fun a b => b.score ≤ a.score) :=
  List.sorted_insertionSort scoreDesc (rows images)

theorem mem_sorted (images : List Image) (x : RankRow) :
    x ∈ sorted images ↔ ∃ im ∈ images, 0 < im.total_votes ∧ toRankRow im = x := by
  rw [(sorted_perm images).mem_iff, rows, qualifying, List.mem_map]
  constructor
  · rintro ⟨im, him, rfl⟩
    rw [List.mem_filter] at him
    exact ⟨im, him.1, by simpa using him.2, rfl⟩
  · rintro ⟨im, him, hpos, rfl⟩
    exact ⟨im, List.mem_filter.mpr ⟨him, by simpa using hpos⟩, rfl⟩

theorem topHot_length (images : List Image) :
    (topHot images).length = min 5 (qualifying images).length := by
  rw [topHot, List.length_take, sorted_length]

theorem topNot_length (images : List Image) :
    (topNot images).length = min 5 (qualifying images).length := by
  rw [topNot, List.length_reverse, List.length_drop, sorted_length]
  omega

theorem sorted_split_pairwise (l : List RankRow) (n : Nat)
    (h : l.Pairwise (fun a b => b.score ≤ a.score)) :
    ∀ x ∈ l.take n, ∀ y ∈ l.drop n, y.score ≤ x.score := by
  have h2 : (l.take n ++ l.drop n).Pairwise (fun a b => b.score ≤ a.score) := by
    rw [List.take_append_drop]; exact h
  exact (List.pairwise_append.mp h2).2.2

theorem mem_take_or_drop (l : List RankRow) (n : Nat) (x : RankRow) (h : x ∈ l) :
    x ∈ l.take n ∨ x ∈ l.drop n := by
  rw [← List.mem_append, List.take_append_drop]; exact h

theorem take_five_eq (l : List RankRow) : l.take 5 = l.take (min 5 l.length) := by
  by_cases h : 5 ≤ l.length
  · rw [Nat.min_eq_left h]
  · have h2 : l.length ≤ 5 := by omega
    rw [Nat.min_eq_right h2, List.take_of_length_le h2, List.take_length]

theorem score_of_nonneg (h t : Int) (hh : 0 ≤ h) (ht : 0 < t) :
    score h t = toFixedDigits (fdiv h t) := by
  have hn : (fdiv h t).neg = false := by
    rw [fdiv_neg]
    have h1 : ¬ h < 0 := by omega
    have h2 : ¬ t < 0 := by omega
    simp [h1, h2]
  simp [score, hn]

theorem score_nearest (h t : Int) (hh : 0 ≤ h) (hh2 : 200 * h < 2 ^ 53) (ht : 0 < t) :
    2 * score h t * t ≤ 200 * h + t ∧ 200 * h ≤ 2 * score h t * t + t := by
  rw [score_of_nonneg h t hh ht]
  obtain ⟨a, rfl⟩ := Int.eq_ofNat_of_zero_le hh
  obtain ⟨b, rfl⟩ := Int.eq_ofNat_of_zero_le ht.le
  have hb0 : 0 < b := by exact_mod_cast ht
  have ha2 : 200 * a < 2 ^ 53 := by exact_mod_cast hh2
  obtain ⟨h1, h2⟩ := toFixedDigits_fdiv_nearest a b hb0 ha2
  constructor
  · exact_mod_cast h1
  · exact_mod_cast h2

/-- C6. The `hot` list is the first min(5, q) entries of the q rows with
total_votes > 0 put in descending score order (a permutation of those rows,
scores non-increasing): it has min(5, q) entries, every entry is the row of a
stored image with total_votes > 0 carrying that image's score (the binary64
quotient hot_votes / total_votes rounded to hundredths; within half a
hundredth of the exact quotient for counters that binary64 holds exactly,
0 ≤ hot_votes with 200 * hot_votes < 2 ^ 53 and total_votes < 2 ^ 53), its
scores are non-increasing, and a qualifying image whose row is not in it
scores no more than any entry. On the images 1 (4 of 5 hot), 2 (1 of 5 hot) and 3 (no
votes) it is image 1 with score 0.80, then image 2 with score 0.20. -/
theorem getRankings_hot (images : List Image) :
    (getRankings images).hot = (sorted images).take (min 5 (qualifying images).length) ∧
    (sorted images).Perm ((qualifying images).map toRankRow) ∧
    (sorted images).Pairwise (fun a b => b.score ≤ a.score) ∧
    (getRankings images).hot.length = min 5 (qualifying images).length ∧
    (∀ x ∈ (getRankings images).hot,
      0 < x.total_votes ∧ x.score = score x.hot_votes x.total_votes ∧
      (0 ≤ x.hot_votes → 200 * x.hot_votes < 2 ^ 53 → x.total_votes < 2 ^ 53 →
        2 * x.score * x.total_votes ≤ 200 * x.hot_votes + x.total_votes ∧
        200 * x.hot_votes ≤ 2 * x.score * x.total_votes + x.total_votes) ∧
      ∃ im ∈ images, 0 < im.total_votes ∧ toRankRow im = x) ∧
    (getRankings images).hot.Pairwise (fun a b => b.score ≤ a.score) ∧
    (∀ im ∈ images, 0 < im.total_votes → toRankRow im ∉ (getRankings images).hot →
      ∀ x ∈ (getRankings images).hot, score im.hot_votes im.total_votes ≤ x.score) ∧
    (getRankings
        [⟨1, "a.png", "/uploads/a.png", 5, 4⟩, ⟨2, "b.png", "/uploads/b.png", 5, 1⟩,
          ⟨3, "c.png", "/uploads/c.png", 0, 0⟩]).hot =
      [⟨1, "/uploads/a.png", 5, 4, 80⟩, ⟨2, "/uploads/b.png", 5, 1, 20⟩] := by
  refine ⟨?_, sorted_perm images, sorted_pairwise images, topHot_length images, ?_, ?_, ?_,
    by decide⟩
  · show (sorted images).take 5 = _
    rw [take_five_eq, sorted_length]
  · intro x hx
    have hx2 : x ∈ sorted images := List.mem_of_mem_take hx
    obtain ⟨im, him, hpos, rfl⟩ := (mem_sorted images x).mp hx2
    exact ⟨hpos, rfl, fun h0 h1 _ => score_nearest _ _ h0 h1 hpos, im, him, hpos, rfl⟩
  · exact (sorted_pairwise images).sublist (List.take_sublist 5 _)
  · intro im him hpos hout x hx
    have hmem : toRankRow im ∈ sorted images := (mem_sorted images _).mpr ⟨im, him, hpos, rfl⟩
    rcases mem_take_or_drop (sorted images) 5 _ hmem with h | h
    · exact absurd h hout
    · exact sorted_split_pairwise (sorted images) 5 (sorted_pairwise images) x hx _ h

theorem getRankings_hot_witness :
    (getRankings
        [⟨1, "a", "/uploads/a", 10, 9⟩, ⟨2, "b", "/uploads/b", 0, 0⟩, ⟨3, "c", "/uploads/c", 4, 1⟩,
          ⟨4, "d", "/uploads/d", 2, 1⟩, ⟨5, "e", "/uploads/e", 3, 3⟩, ⟨6, "f", "/uploads/f", 8, 1⟩,
          ⟨7, "g", "/uploads/g", 5, 0⟩, ⟨8, "h", "/uploads/h", 3, 2⟩]).hot.map (fun x => (x.id, x.score)) =
      [(5, 100), (1, 90), (8, 67), (4, 50), (3, 25)] ∧
    (getRankings
        [⟨1, "a", "/uploads/a", 200, 3⟩, ⟨2, "b", "/uploads/b", 50, 1⟩, ⟨3, "c", "/uploads/c", 50, 1⟩,
          ⟨4, "d", "/uploads/d", 50, 1⟩, ⟨5, "e", "/uploads/e", 50, 1⟩, ⟨6, "f", "/uploads/f", 50, 1⟩]).hot.map (fun x => (x.id, x.score)) =
      [(2, 2), (3, 2), (4, 2), (5, 2), (6, 2)] ∧
    (getRankings
        [⟨1, "a", "/uploads/a", 200, 3⟩, ⟨2, "b", "/uploads/b", 50, 1⟩, ⟨3, "c", "/uploads/c", 50, 1⟩,
          ⟨4, "d", "/uploads/d", 50, 1⟩, ⟨5, "e", "/uploads/e", 50, 1⟩, ⟨6, "f", "/uploads/f", 50, 1⟩]).hot.length =
      min 5 (qualifying
        [⟨1, "a", "/uploads/a", 200, 3⟩, ⟨2, "b", "/uploads/b", 50, 1⟩, ⟨3, "c", "/uploads/c", 50, 1⟩,
          ⟨4, "d", "/uploads/d", 50, 1⟩, ⟨5, "e", "/uploads/e", 50, 1⟩, ⟨6, "f", "/uploads/f", 50, 1⟩]).length :=
  ⟨by decide, by decide,
   (getRankings_hot
        [⟨1, "a", "/uploads/a", 200, 3⟩, ⟨2, "b", "/uploads/b", 50, 1⟩, ⟨3, "c", "/uploads/c", 50, 1⟩,
          ⟨4, "d", "/uploads/d", 50, 1⟩, ⟨5, "e", "/uploads/e", 50, 1⟩, ⟨6, "f", "/uploads/f", 50, 1⟩]).2.2.2.1⟩

/-- C7. The `not` list is the last 5 entries of the descending score order,
reversed: it has min(5, q) entries for q images with total_votes > 0, its
scores are non-decreasing, every entry is the row of a stored image with
total_votes > 0 carrying that image's score (the binary64 quotient
hot_votes / total_votes rounded to hundredths; within half a hundredth of the
exact quotient for counters that binary64 holds exactly), and a qualifying
image whose row is not in it scores no less than any entry. -/
theorem getRankings_not (images : List Image) :
    (getRankings images).not =
      ((sorted images).drop ((qualifying images).length - 5)).reverse ∧
    (sorted images).Perm ((qualifying images).map toRankRow) ∧
    (sorted images).Pairwise (fun a b => b.score ≤ a.score) ∧
    (getRankings images).not.length = min 5 (qualifying images).length ∧
    (getRankings images).not.Pairwise (fun a b => a.score ≤ b.score) ∧
    (∀ x ∈ (getRankings images).not,
      0 < x.total_votes ∧ x.score = score x.hot_votes x.total_votes ∧
      (0 ≤ x.hot_votes → 200 * x.hot_votes < 2 ^ 53 → x.total_votes < 2 ^ 53 →
        2 * x.score * x.total_votes ≤ 200 * x.hot_votes + x.total_votes ∧
        200 * x.hot_votes ≤ 2 * x.score * x.total_votes + x.total_votes) ∧
      ∃ im ∈ images, 0 < im.total_votes ∧ toRankRow im = x) ∧
    (∀ im ∈ images, 0 < im.total_votes → toRankRow im ∉ (getRankings images).not →
      ∀ x ∈ (getRankings images).not, x.score ≤ score im.hot_votes im.total_votes) := by
  refine ⟨?_, sorted_perm images, sorted_pairwise images, topNot_length images, ?_, ?_, ?_⟩
  · show ((sorted images).drop ((sorted images).length - 5)).reverse = _
    rw [sorted_length]
  · show (((sorted images).drop ((sorted images).length - 5)).reverse).Pairwise _
    rw [List.pairwise_reverse]
    exact (sorted_pairwise images).sublist (List.drop_sublist _ _)
  · intro x hx
    have hx1 : x ∈ (sorted images).drop ((sorted images).length - 5) := List.mem_reverse.mp hx
    have hx2 : x ∈ sorted images := List.mem_of_mem_drop hx1
    obtain ⟨im, him, hpos, rfl⟩ := (mem_sorted images x).mp hx2
    exact ⟨hpos, rfl, fun h0 h1 _ => score_nearest _ _ h0 h1 hpos, im, him, hpos, rfl⟩
  · intro im him hpos hout x hx
    have hx1 : x ∈ (sorted images).drop ((sorted images).length - 5) := List.mem_reverse.mp hx
    have hmem : toRankRow im ∈ sorted images := (mem_sorted images _).mpr ⟨im, him, hpos, rfl⟩
    rcases mem_take_or_drop (sorted images) ((sorted images).length - 5) _ hmem with h | h
    · exact sorted_split_pairwise (sorted images) _ (sorted_pairwise images) _ h x hx1
    · exact absurd (List.mem_reverse.mpr h) hout

theorem getRankings_not_witness :
    (getRankings
        [⟨1, "a", "/uploads/a", 10, 9⟩, ⟨2, "b", "/uploads/b", 0, 0⟩, ⟨3, "c", "/uploads/c", 4, 1⟩,
          ⟨4, "d", "/uploads/d", 2, 1⟩, ⟨5, "e", "/uploads/e", 3, 3⟩, ⟨6, "f", "/uploads/f", 8, 1⟩,
          ⟨7, "g", "/uploads/g", 5, 0⟩, ⟨8, "h", "/uploads/h", 3, 2⟩]).not.map (fun x => (x.id, x.score)) =
      [(7, 0), (6, 13), (3, 25), (4, 50), (8, 67)] ∧
    (getRankings
        [⟨1, "a", "/uploads/a", 200, 3⟩, ⟨2, "b", "/uploads/b", 50, 1⟩, ⟨3, "c", "/uploads/c", 50, 1⟩,
          ⟨4, "d", "/uploads/d", 50, 1⟩, ⟨5, "e", "/uploads/e", 50, 1⟩, ⟨6, "f", "/uploads/f", 50, 1⟩]).not.map (fun x => (x.id, x.score)) =
      [(1, 1), (6, 2), (5, 2), (4, 2), (3, 2)] ∧
    (getRankings
        [⟨1, "a", "/uploads/a", 200, 3⟩, ⟨2, "b", "/uploads/b", 50, 1⟩, ⟨3, "c", "/uploads/c", 50, 1⟩,
          ⟨4, "d", "/uploads/d", 50, 1⟩, ⟨5, "e", "/uploads/e", 50, 1⟩, ⟨6, "f", "/uploads/f", 50, 1⟩]).not.length =
      min 5 (qualifying
        [⟨1, "a", "/uploads/a", 200, 3⟩, ⟨2, "b", "/uploads/b", 50, 1⟩, ⟨3, "c", "/uploads/c", 50, 1⟩,
          ⟨4, "d", "/uploads/d", 50, 1⟩, ⟨5, "e", "/uploads/e", 50, 1⟩, ⟨6, "f", "/uploads/f", 50, 1⟩]).length :=
  ⟨by decide, by decide,
   (getRankings_not
        [⟨1, "a", "/uploads/a", 200, 3⟩, ⟨2, "b", "/uploads/b", 50, 1⟩, ⟨3, "c", "/uploads/c", 50, 1⟩,
          ⟨4, "d", "/uploads/d", 50, 1⟩, ⟨5, "e", "/uploads/e", 50, 1⟩, ⟨6, "f", "/uploads/f", 50, 1⟩]).2.2.2.1⟩

/-- C8. With fewer than 5 images of total_votes > 0, the `hot` list and the
`not` list are both permutations of the rows of the qualifying images (each
row once, nothing else), and the `not` list is the `hot` list reversed. -/
theorem getRankings_few (images : List Image) (hq : (qualifying images).length < 5) :
    (getRankings images).hot.Perm ((qualifying images).map toRankRow) ∧
    (getRankings images).not.Perm ((qualifying images).map toRankRow) ∧
    (getRankings images).not = (getRankings images).hot.reverse := by
  have hlen : (sorted images).length ≤ 5 := by rw [sorted_length]; omega
  have hhot : (getRankings images).hot = sorted images := List.take_of_length_le hlen
  have hnot : (getRankings images).not = (sorted images).reverse := by
    show ((sorted images).drop ((sorted images).length - 5)).reverse = _
    rw [Nat.sub_eq_zero_of_le hlen, List.drop_zero]
  rw [hhot, hnot]
  exact ⟨sorted_perm images, (List.reverse_perm _).trans (sorted_perm images), rfl⟩

theorem getRankings_few_witness :
    (qualifying
        [⟨1, "a.png", "/uploads/a.png", 5, 1⟩, ⟨2, "b.png", "/uploads/b.png", 0, 0⟩,
          ⟨3, "c.png", "/uploads/c.png", 4, 3⟩]).length < 5 ∧
    (getRankings
        [⟨1, "a.png", "/uploads/a.png", 5, 1⟩, ⟨2, "b.png", "/uploads/b.png", 0, 0⟩,
          ⟨3, "c.png", "/uploads/c.png", 4, 3⟩]) =
      ⟨[⟨3, "/uploads/c.png", 4, 3, 75⟩, ⟨1, "/uploads/a.png", 5, 1, 20⟩],
        [⟨1, "/uploads/a.png", 5, 1, 20⟩, ⟨3, "/uploads/c.png", 4, 3, 75⟩]⟩ ∧
    (getRankings
        [⟨1, "a.png", "/uploads/a.png", 5, 1⟩, ⟨2, "b.png", "/uploads/b.png", 0, 0⟩,
          ⟨3, "c.png", "/uploads/c.png", 4, 3⟩]).not =
      (getRankings
        [⟨1, "a.png", "/uploads/a.png", 5, 1⟩, ⟨2, "b.png", "/uploads/b.png", 0, 0⟩,
          ⟨3, "c.png", "/uploads/c.png", 4, 3⟩]).hot.reverse :=
  ⟨by decide, by decide,
   (getRankings_few
      [⟨1, "a.png", "/uploads/a.png", 5, 1⟩, ⟨2, "b.png", "/uploads/b.png", 0, 0⟩,
        ⟨3, "c.png", "/uploads/c.png", 4, 3⟩] (by decide)).2.2⟩

/-- The score follows the binary64 quotient: 3/200 and 199/200 lie just below
the midpoints 0.015 and 0.995 as binary64 numbers and round down, 1/8 is a
binary64 number and rounds away from zero. -/
theorem score_midpoints :
    score 3 200 = 1 ∧ score 199 200 = 99 ∧ score 1 8 = 13 ∧ score 4 5 = 80 ∧
    score (-1) 8 = -13 := by
  decide

end HotOrNot
